import Mathlib

/-!
Verification development for the git mediation layer of zed-git-view.

The Go sources under `internal/git` are shallowly embedded here:
* `parser.go` — `ParseLogOutput`, `parseCommitEntry`, `ParseRefs`,
  `ParseStatusOutput` become pure functions over `List Char` (Go strings
  are modelled as character lists; byte-level scanning with `IndexByte`
  becomes splitting on the separator character, which yields the same
  sequence of entries the Go loop consumes).
* `cli.go` — the diff-output truncation applied by `Diff`, `DiffRange`,
  `Show` and the absence of truncation in `StashShow` become pure
  post-processing functions on the raw tool output.
* `cache.go` — `CachedService` becomes an explicit state machine: the
  entry map is an association list, `time.Now()` is passed in as an
  explicit instant, and the inner `Service` call performed on a cache
  miss is passed in as the value/error pair it would produce.
-/

namespace Git

/-! ## String helpers (models of the Go standard library functions used) -/

/-- Model of `unicode.IsSpace` restricted to the ASCII whitespace
characters (space, tab, newline, vertical tab, form feed, carriage
return); git's machine-format output contains no other space runes. -/
def isSpaceGo (c : Char) : Bool :=
  c = ' ' || c = '\t' || c = '\n' || c = '\x0B' || c = '\x0C' || c = '\r'

/-- Model of `strings.TrimSpace`: drop whitespace from both ends. -/
def trimSpace (l : List Char) : List Char :=
  ((l.dropWhile isSpaceGo).reverse.dropWhile isSpaceGo).reverse

/-- Model of `strings.Split(s, sep)` for a single-character separator.
This is also the entry sequence produced by the Go loops that scan with
`strings.IndexByte(out, sep)` and slice, except that those loops stop on
the empty remainder and therefore never see a final empty entry; every
caller in `parser.go` skips empty entries, so the two agree. -/
def splitChar (sep : Char) : List Char → List (List Char)
  | [] => [[]]
  | c :: rest =>
    if c = sep then [] :: splitChar sep rest
    else
      match splitChar sep rest with
      | [] => [[c]]
      | f :: gs => (c :: f) :: gs

/-- Helper for `splitCharN`: split off the text before the first
occurrence of `sep`, returning `none` when `sep` does not occur. -/
def splitFirst (sep : Char) : List Char → Option (List Char × List Char)
  | [] => none
  | c :: rest =>
    if c = sep then some ([], rest)
    else
      match splitFirst sep rest with
      | none => none
      | some (f, r) => some (c :: f, r)

/-- Model of `strings.SplitN(s, sep, n)` for a single-character
separator: at most `n` fields, the last field holding the unsplit
remainder. -/
def splitCharN (sep : Char) : Nat → List Char → List (List Char)
  | 0, _ => []
  | 1, l => [l]
  | n + 2, l =>
    match splitFirst sep l with
    | none => [l]
    | some (f, rest) => f :: splitCharN sep (n + 1) rest

/-- Model of `strings.Split(raw, ", ")`, the two-character separator used
for decoration strings. -/
def splitCommaSpace : List Char → List (List Char)
  | [] => [[]]
  | ',' :: ' ' :: rest => [] :: splitCommaSpace rest
  | c :: rest =>
    match splitCommaSpace rest with
    | [] => [[c]]
    | f :: gs => (c :: f) :: gs

/-- Helper for `fieldsGo`, accumulating the current (reversed) field. -/
def fieldsAux : List Char → List Char → List (List Char)
  | cur, [] => if cur = [] then [] else [cur.reverse]
  | cur, c :: rest =>
    if isSpaceGo c then
      if cur = [] then fieldsAux [] rest else cur.reverse :: fieldsAux [] rest
    else fieldsAux (c :: cur) rest

/-- Model of `strings.Fields`: split around runs of whitespace. -/
def fieldsGo (l : List Char) : List (List Char) := fieldsAux [] l

/-- Helper for `digitsVal`: left fold over decimal digits. -/
def digitsValAux : List Char → Nat → Option Nat
  | [], acc => some acc
  | c :: rest, acc =>
    if c.isDigit then digitsValAux rest (acc * 10 + (c.toNat - '0'.toNat))
    else none

/-- Numeric value of a non-empty all-digit character list, `none`
otherwise. -/
def digitsVal : List Char → Option Nat
  | [] => none
  | l => digitsValAux l 0

/-- Clamp to the int64 range, as `strconv.ParseInt(_, 10, 64)` does on
range overflow (the parse error itself is discarded at the call site). -/
def clampInt64 (v : Int) : Int :=
  if v > 2 ^ 63 - 1 then 2 ^ 63 - 1 else if v < -(2 ^ 63) then -(2 ^ 63) else v

/-- Model of `strconv.ParseInt(s, 10, 64)` with the error ignored, as in
`parseCommitEntry`: syntax errors yield 0, range overflow clamps. -/
def parseIntGo (l : List Char) : Int :=
  match l with
  | '+' :: rest =>
    match digitsVal rest with
    | none => 0
    | some n => clampInt64 n
  | '-' :: rest =>
    match digitsVal rest with
    | none => 0
    | some n => clampInt64 (-(n : Int))
  | _ =>
    match digitsVal l with
    | none => 0
    | some n => clampInt64 n

/-! ## Data model (`types.go`) -/

/-- Go: `type StatusCode byte`; the codes are single ASCII characters. -/
abbrev StatusCode := Char

def StatusUnmodified : StatusCode := ' '

def StatusModified : StatusCode := 'M'

def StatusTypeChanged : StatusCode := 'T'

def StatusAdded : StatusCode := 'A'

def StatusDeleted : StatusCode := 'D'

def StatusRenamed : StatusCode := 'R'

def StatusCopied : StatusCode := 'C'

def StatusUnmerged : StatusCode := 'U'

def StatusUntracked : StatusCode := '?'

def StatusIgnored : StatusCode := '!'

/-- Go `RefType` enumeration. -/
inductive RefType where
  | RefBranch
  | RefRemoteBranch
  | RefTag
  | RefHead
  | RefStash
deriving DecidableEq

/-- Go `Ref` record. The Go field `Type` is called `Typ` here because
`Type` is reserved in Lean. -/
structure Ref where
  Name : List Char
  Typ : RefType
  Remote : List Char
deriving DecidableEq

/-- Go `Commit` record. `Date` holds the epoch seconds passed to
`time.Unix(ts, 0)`. -/
structure Commit where
  Hash : List Char
  ShortHash : List Char
  Author : List Char
  AuthorEmail : List Char
  Date : Int
  RelDate : List Char
  Subject : List Char
  Body : List Char
  Parents : List (List Char)
  Refs : List Ref
deriving DecidableEq

/-- Go `FileStatus` record. -/
structure FileStatus where
  Staging : StatusCode
  Worktree : StatusCode
  Path : List Char
  OrigPath : List Char
  IsStaged : Bool
deriving DecidableEq

/-- Go `StatusResult` record. -/
structure StatusResult where
  Staged : List FileStatus
  Unstaged : List FileStatus
  Untracked : List FileStatus
  Conflicts : List FileStatus
deriving DecidableEq

/-! ## Decoration parsing (`ParseRefs`, parser.go) -/

/-- The switch in the body of the `ParseRefs` loop: classify one trimmed,
non-empty decoration element.  Go builds `ref := Ref{Name: r}` and then
mutates it in the switch; prefix stripping is `strings.TrimPrefix`. -/
def classifyRef (r : List Char) : Ref :=
  if r = "HEAD".data then
    { Name := r, Typ := RefType.RefHead, Remote := [] }
  else if "HEAD -> ".data.isPrefixOf r then
    { Name := r.drop "HEAD -> ".length, Typ := RefType.RefHead, Remote := [] }
  else if "tag: ".data.isPrefixOf r then
    { Name := r.drop "tag: ".length, Typ := RefType.RefTag, Remote := [] }
  else if r.contains '/' then
    { Name := (splitCharN '/' 2 r).getD 1 [],
      Typ := RefType.RefRemoteBranch,
      Remote := (splitCharN '/' 2 r).getD 0 [] }
  else
    { Name := r, Typ := RefType.RefBranch, Remote := [] }

/-- The `ParseRefs` loop over the elements of `strings.Split(raw, ", ")`:
trim each element, skip empty ones, classify the rest in order. -/
def goRefs : List (List Char) → List Ref
  | [] => []
  | e :: rest =>
    if trimSpace e = [] then goRefs rest
    else classifyRef (trimSpace e) :: goRefs rest

/-- Go `ParseRefs`: parse the `%D` decoration string into typed refs. -/
def ParseRefs (raw : List Char) : List Ref :=
  goRefs (splitCommaSpace raw)

/-! ## Log parsing (`ParseLogOutput`, parser.go) -/

/-- Go `parseCommitEntry`: split the entry into at most 10 NUL-separated
fields; fewer than 10 fields means the record is malformed and is
dropped (`none`).  Field trimming, timestamp parsing, parent splitting
and decoration parsing follow the Go code. -/
def parseCommitEntry (entry : List Char) : Option Commit :=
  let parts := splitCharN '\x00' 10 entry
  if parts.length < 10 then none
  else some
    { Hash := trimSpace (parts.getD 0 [])
      ShortHash := trimSpace (parts.getD 1 [])
      Author := trimSpace (parts.getD 2 [])
      AuthorEmail := trimSpace (parts.getD 3 [])
      Date := parseIntGo (trimSpace (parts.getD 4 []))
      RelDate := trimSpace (parts.getD 5 [])
      Subject := trimSpace (parts.getD 6 [])
      Body := trimSpace (parts.getD 7 [])
      Parents :=
        if trimSpace (parts.getD 8 []) = [] then []
        else fieldsGo (trimSpace (parts.getD 8 []))
      Refs :=
        if trimSpace (parts.getD 9 []) = [] then []
        else ParseRefs (trimSpace (parts.getD 9 [])) }

/-- The `ParseLogOutput` loop over `\x01`-separated entries: trim, skip
empties, keep the commits whose entry parses. -/
def goLog : List (List Char) → List Commit
  | [] => []
  | e :: rest =>
    if trimSpace e = [] then goLog rest
    else
      match parseCommitEntry (trimSpace e) with
      | some c => c :: goLog rest
      | none => goLog rest

/-- Go `ParseLogOutput`: early return on empty input, otherwise scan the
`\x01`-separated entries. -/
def ParseLogOutput (out : List Char) : List Commit :=
  if out = [] then [] else goLog (splitChar '\x01' out)

/-- The raw output `git log` produces for a list of records with the
format flag of `LogFormatFlag`: every record is followed by the `\x01`
record separator. -/
def joinRecs (rs : List (List Char)) : List Char :=
  rs.foldr (fun r acc => r ++ '\x01' :: acc) []

/-! ## Status parsing (`ParseStatusOutput`, parser.go) -/

/-- The classification block at the end of the `ParseStatusOutput` loop
body, prepending the record in front of the classification of the
following entries (the Go loop appends in input order): untracked on
both sides first, then conflict codes, then the independent staged and
unstaged checks. -/
def statusClassify (fs : FileStatus) (res : StatusResult) : StatusResult :=
  if fs.Staging = StatusUntracked ∧ fs.Worktree = StatusUntracked then
    { res with Untracked := fs :: res.Untracked }
  else if fs.Staging = StatusUnmerged ∨ fs.Worktree = StatusUnmerged ∨
      (fs.Staging = StatusAdded ∧ fs.Worktree = StatusAdded) ∨
      (fs.Staging = StatusDeleted ∧ fs.Worktree = StatusDeleted) then
    { res with Conflicts := fs :: res.Conflicts }
  else
    let res1 :=
      if fs.Staging ≠ StatusUnmodified ∧ fs.Staging ≠ StatusUntracked then
        { res with Staged := { fs with IsStaged := true } :: res.Staged }
      else res
    if fs.Worktree ≠ StatusUnmodified ∧ fs.Worktree ≠ StatusUntracked then
      { res1 with Unstaged := fs :: res1.Unstaged }
    else res1

/-- The `ParseStatusOutput` loop over NUL-separated entries: skip entries
shorter than 4 characters; read the two status codes and the path; a
rename/copy code on either side consumes the next entry as the original
path (an exhausted stream leaves it empty, as in Go). -/
def goStatus : List (List Char) → StatusResult
  | [] => ⟨[], [], [], []⟩
  | entry :: rest =>
    if entry.length < 4 then goStatus rest
    else
      let staging := entry.getD 0 ' '
      let worktree := entry.getD 1 ' '
      let path := entry.drop 3
      if staging = StatusRenamed ∨ staging = StatusCopied ∨
          worktree = StatusRenamed ∨ worktree = StatusCopied then
        match rest with
        | [] =>
          statusClassify ⟨staging, worktree, path, [], false⟩ (goStatus [])
        | o :: r =>
          statusClassify ⟨staging, worktree, path, o, false⟩ (goStatus r)
      else
        statusClassify ⟨staging, worktree, path, [], false⟩ (goStatus rest)

/-- Go `ParseStatusOutput`: parse `git status --porcelain=v1 -z`. -/
def ParseStatusOutput (out : List Char) : StatusResult :=
  if out = [] then ⟨[], [], [], []⟩ else goStatus (splitChar '\x00' out)

/-- The records `ParseStatusOutput` extracts, before classification: the
same entry consumption as `goStatus` (length-4 guard, rename/copy
consuming the next entry as original path), producing the raw
`FileStatus` values in input order. -/
def statusRecords : List (List Char) → List FileStatus
  | [] => []
  | entry :: rest =>
    if entry.length < 4 then statusRecords rest
    else
      let staging := entry.getD 0 ' '
      let worktree := entry.getD 1 ' '
      let path := entry.drop 3
      if staging = StatusRenamed ∨ staging = StatusCopied ∨
          worktree = StatusRenamed ∨ worktree = StatusCopied then
        match rest with
        | [] => [⟨staging, worktree, path, [], false⟩]
        | o :: r => ⟨staging, worktree, path, o, false⟩ :: statusRecords r
      else ⟨staging, worktree, path, [], false⟩ :: statusRecords rest

/-- A record the classification sends to `Conflicts`: an unmerged code on
either side, or added on both sides, or deleted on both sides. -/
def isConflictRec (fs : FileStatus) : Bool :=
  fs.Staging = StatusUnmerged || fs.Worktree = StatusUnmerged ||
    (fs.Staging = StatusAdded && fs.Worktree = StatusAdded) ||
    (fs.Staging = StatusDeleted && fs.Worktree = StatusDeleted)

/-- A record the classification sends to `Untracked`: untracked on both
sides. -/
def isUntrackedRec (fs : FileStatus) : Bool :=
  fs.Staging = StatusUntracked && fs.Worktree = StatusUntracked

/-- A record the classification sends to `Staged`: neither untracked-both
nor conflicting, and the index-side code is neither unmodified nor
untracked. -/
def isStagedRec (fs : FileStatus) : Bool :=
  !isUntrackedRec fs && !isConflictRec fs &&
    fs.Staging != StatusUnmodified && fs.Staging != StatusUntracked

/-- A record the classification sends to `Unstaged`: neither
untracked-both nor conflicting, and the worktree-side code is neither
unmodified nor untracked. -/
def isUnstagedRec (fs : FileStatus) : Bool :=
  !isUntrackedRec fs && !isConflictRec fs &&
    fs.Worktree != StatusUnmodified && fs.Worktree != StatusUntracked

/-- Mark a record as staged, as the `staged := fs; staged.IsStaged =
true` copy in the Go loop does. -/
def markStaged (fs : FileStatus) : FileStatus :=
  { fs with IsStaged := true }

/-! ## Diff output handling (`cli.go`)

Each diff-producing method of `CLIService` obtains the raw tool output
(`s.run(...)`) and post-processes it before returning; the functions
below are those post-processing steps on a successful raw output. -/

/-- Go constant `maxDiffBytes = 512 * 1024`. -/
def maxDiffBytes : Nat := 512 * 1024

/-- The notice appended by the truncating methods. -/
def truncNotice : List Char :=
  "\n\n... (diff truncated — exceeds 512 KB) ...\n".data

/-- Output handling of `CLIService.Diff`: truncate past `maxDiffBytes`
and append the notice. -/
def DiffOutput (out : List Char) : List Char :=
  if maxDiffBytes < out.length then out.take maxDiffBytes ++ truncNotice
  else out

/-- Output handling of `CLIService.DiffRange`: identical truncation. -/
def DiffRangeOutput (out : List Char) : List Char :=
  if maxDiffBytes < out.length then out.take maxDiffBytes ++ truncNotice
  else out

/-- Output handling of the diff component of `CLIService.Show`:
identical truncation. -/
def ShowDiffOutput (diff : List Char) : List Char :=
  if maxDiffBytes < diff.length then diff.take maxDiffBytes ++ truncNotice
  else diff

/-- Output handling of `CLIService.StashShow`: the raw output of
`git stash show -p` is returned as is, with no truncation. -/
def StashShowOutput (out : List Char) : List Char := out

/-! ## The TTL cache (`cache.go`)

`CachedService` is embedded as a state machine.  The entry map becomes
an association list with unique keys (`insertE` replaces in place, as a
Go map assignment does); `time.Now()` becomes an explicit instant
passed to each operation; the inner `Service` call a cache miss would
perform is passed in as the value/error pair it would produce, and each
read reports whether it invoked the inner service. -/

namespace GitCache

/-- Go constant `maxCacheEntries = 64`. -/
def maxCacheEntries : Nat := 64

/-- Go `cacheEntry`: cached value, cached error, absolute expiry. -/
structure cacheEntry (α : Type) where
  val : α
  err : Option String
  expiry : Int
deriving DecidableEq

/-- The `cache map[string]cacheEntry` field, as an association list. -/
abbrev Cache (α : Type) := List (String × cacheEntry α)

/-- Map lookup on the association list. -/
def lookupE {α : Type} : Cache α → String → Option (cacheEntry α)
  | [], _ => none
  | (k, e) :: rest, key => if k = key then some e else lookupE rest key

/-- Map assignment `c.cache[key] = e`: replace the entry of an existing
key, append otherwise. -/
def insertE {α : Type} : Cache α → String → cacheEntry α → Cache α
  | [], key, e => [(key, e)]
  | (k, e') :: rest, key, e =>
    if k = key then (key, e) :: rest else (k, e') :: insertE rest key e

/-- Go `CachedService.get`: a key misses when absent or when `now` is
after its expiry; a hit returns the cached value together with the
cached error. -/
def getE {α : Type} (c : Cache α) (now : Int) (key : String) :
    Option (α × Option String) :=
  match lookupE c key with
  | none => none
  | some e => if now > e.expiry then none else some (e.val, e.err)

/-- Go `CachedService.set`: when the map is at or above the cap, first
delete the expired entries; when still at or above the cap, flush the
whole map; finally store the new entry with expiry `now + ttl`. -/
def setE {α : Type} (ttl : Int) (c : Cache α) (now : Int) (key : String)
    (v : α) (err : Option String) : Cache α :=
  let c1 :=
    if maxCacheEntries ≤ c.length then
      let c2 := c.filter fun p => !(now > p.2.expiry)
      if maxCacheEntries ≤ c2.length then [] else c2
    else c
  insertE c1 key ⟨v, err, now + ttl⟩

/-- Go `CachedService.Invalidate`: replace the map with a fresh one. -/
def Invalidate {α : Type} (_ : Cache α) : Cache α := []

/-- Go `CachedService.invalidateAndReturn`: on a nil error invalidate,
then hand the inner error back unchanged. -/
def invalidateAndReturn {α : Type} (c : Cache α) (err : Option String) :
    Option String × Cache α :=
  if err = none then (err, Invalidate c) else (err, c)

/-- Result of one cached read: returned value and error, the cache state
after the call, and whether the inner service was invoked. -/
structure ReadResult (α : Type) where
  value : α
  err : Option String
  cache : Cache α
  invoked : Bool
deriving DecidableEq

/-- The shared body of every cached read method (`Head`, `IsClean`,
`Status`, `Branches`, `StashList`, `Remotes`, `WorktreeList`,
`ConflictFiles`, ...): return a hit directly; on a miss invoke the
inner service, store its value and error, and return them. -/
def cachedRead {α : Type} (ttl : Int) (c : Cache α) (now : Int)
    (key : String) (innerVal : α) (innerErr : Option String) :
    ReadResult α :=
  match getE c now key with
  | some (v, e) => ⟨v, e, c, false⟩
  | none => ⟨innerVal, innerErr, setE ttl c now key innerVal innerErr, true⟩

/-- Go `CachedService.Head` (cache key `"head"`). -/
def Head {α : Type} (ttl : Int) (c : Cache α) (now : Int) (iv : α)
    (ie : Option String) : ReadResult α :=
  cachedRead ttl c now "head" iv ie

/-- Go `CachedService.Status` (cache key `"status"`). -/
def Status {α : Type} (ttl : Int) (c : Cache α) (now : Int) (iv : α)
    (ie : Option String) : ReadResult α :=
  cachedRead ttl c now "status" iv ie

/-- Go `CachedService.Stage`: like every write method, it forwards the
inner error through `invalidateAndReturn`. -/
def Stage {α : Type} (c : Cache α) (innerErr : Option String) :
    Option String × Cache α :=
  invalidateAndReturn c innerErr

/-- Go `CachedService.Commit`: the same write pattern. -/
def CommitW {α : Type} (c : Cache α) (innerErr : Option String) :
    Option String × Cache α :=
  invalidateAndReturn c innerErr

end GitCache

end Git

namespace Git

/-! ## Claim theorems: diff truncation -/

/-- C5 counterexample: `StashShow` performs no truncation.  On a raw
`git stash show -p` output one byte longer than `maxDiffBytes`, the
value returned to the caller is the raw output itself, exceeding the
512 KiB ceiling with no truncation notice. -/
theorem stashShow_not_truncated_counterexample :
    StashShowOutput (List.replicate (maxDiffBytes + 1) 'a') =
        List.replicate (maxDiffBytes + 1) 'a' ∧
    maxDiffBytes <
      (StashShowOutput (List.replicate (maxDiffBytes + 1) 'a')).length := by
  refine ⟨rfl, ?_⟩
  simp [StashShowOutput]

/-- C5 (amended): `Diff`, `DiffRange` and the diff component of `Show`
return raw tool output unmodified when it is at most `maxDiffBytes`
(512 KiB = 524288 bytes), and otherwise return exactly the first
`maxDiffBytes` bytes of it with the truncation notice appended;
`StashShow` is the exception and returns its raw output unmodified at
any size. -/
theorem diff_truncation (raw : List Char) :
    (raw.length ≤ maxDiffBytes →
      DiffOutput raw = raw ∧ DiffRangeOutput raw = raw ∧
        ShowDiffOutput raw = raw) ∧
    (maxDiffBytes < raw.length →
      DiffOutput raw = raw.take maxDiffBytes ++ truncNotice ∧
      DiffRangeOutput raw = raw.take maxDiffBytes ++ truncNotice ∧
      ShowDiffOutput raw = raw.take maxDiffBytes ++ truncNotice ∧
      (raw.take maxDiffBytes).length = maxDiffBytes) ∧
    StashShowOutput raw = raw := by
  refine ⟨?_, ?_, rfl⟩
  · intro h
    have h' : ¬ maxDiffBytes < raw.length := by omega
    simp [DiffOutput, DiffRangeOutput, ShowDiffOutput, h']
  · intro h
    refine ⟨?_, ?_, ?_, ?_⟩ <;>
      simp [DiffOutput, DiffRangeOutput, ShowDiffOutput, h]
    omega

/-- C5 witness: the amended theorem applied to a one-byte raw output,
which is returned unmodified. -/
theorem diff_truncation_witness :
    ['d'].length ≤ maxDiffBytes ∧ DiffOutput ['d'] = ['d'] :=
  ⟨by decide, ((diff_truncation ['d']).1 (by decide)).1⟩

/-! ## Claim theorems: decoration parsing -/

theorem splitFirst_of_mem (sep : Char) :
    ∀ l : List Char, sep ∈ l →
      splitFirst sep l =
        some (l.takeWhile (· ≠ sep), (l.dropWhile (· ≠ sep)).tail) := by
  intro l hl
  induction l with
  | nil => cases hl
  | cons c rest ih =>
    by_cases hc : c = sep
    · subst hc
      simp [splitFirst, List.takeWhile, List.dropWhile]
    · have hmem : sep ∈ rest := by
        cases hl with
        | head => exact absurd rfl hc
        | tail _ h => exact h
      simp [splitFirst, hc, ih hmem, List.takeWhile, List.dropWhile]

/-- C9: every decoration element that is not exactly `HEAD`, does not
start with `HEAD -> ` or `tag: `, and contains a `/` is classified by
`ParseRefs` as a remote branch whose `Remote` is the text before the
first slash and whose `Name` is the remainder; in particular a local
branch whose name contains a slash (such as `feature/x`) is typed
remote-branch, never local-branch. -/
theorem parseRefs_slash_remote (r : List Char)
    (hs : splitCommaSpace r = [r]) (ht : trimSpace r = r) (hne : r ≠ [])
    (hH : r ≠ "HEAD".data)
    (hp1 : "HEAD -> ".data.isPrefixOf r = false)
    (hp2 : "tag: ".data.isPrefixOf r = false)
    (hsl : r.contains '/' = true) :
    ParseRefs r =
      [{ Name := (r.dropWhile (· ≠ '/')).tail,
         Typ := RefType.RefRemoteBranch,
         Remote := r.takeWhile (· ≠ '/') }] := by
  have hmem : '/' ∈ r := by simpa using hsl
  have hsplit : splitCharN '/' 2 r =
      [r.takeWhile (· ≠ '/'), (r.dropWhile (· ≠ '/')).tail] := by
    simp [splitCharN, splitFirst_of_mem '/' r hmem]
  unfold ParseRefs
  rw [hs]
  simp only [goRefs, ht]
  rw [if_neg hne]
  unfold classifyRef
  rw [if_neg hH, if_neg (by simp [hp1]), if_neg (by simp [hp2]),
    if_pos hsl, hsplit]
  rfl

/-- C9 witness: the theorem applied to the single local-branch
decoration element `feature/x`, which comes back typed as a remote
branch with remote `feature` and name `x`. -/
theorem parseRefs_slash_remote_witness :
    ParseRefs "feature/x".data =
      [{ Name := "x".data, Typ := RefType.RefRemoteBranch,
         Remote := "feature".data }] :=
  (parseRefs_slash_remote "feature/x".data (by decide) (by decide)
    (by decide) (by decide) (by decide) (by decide) (by decide)).trans
    (by decide)

/-! ## Claim theorems: log parsing -/

theorem splitChar_append_sep (sep : Char) :
    ∀ (r t : List Char), sep ∉ r →
      splitChar sep (r ++ sep :: t) = r :: splitChar sep t := by
  intro r t hr
  induction r with
  | nil => simp [splitChar]
  | cons c cs ih =>
    have hc : ¬ c = sep := fun h => hr (h ▸ List.mem_cons_self c cs)
    have hcs : sep ∉ cs := fun h => hr (List.mem_cons_of_mem c h)
    simp only [List.cons_append, splitChar, hc, if_false]
    rw [show splitChar sep (cs.append (sep :: t)) = cs :: splitChar sep t
      from ih hcs]

/-- One parsed record of the `ParseLogOutput` loop: empty entries (after
trimming) are skipped, and so are entries `parseCommitEntry` rejects. -/
theorem goLog_cons (e : List Char) (rest : List (List Char)) :
    goLog (e :: rest) =
      (match (if trimSpace e = [] then none
        else parseCommitEntry (trimSpace e)) with
        | some c => c :: goLog rest
        | none => goLog rest) := by
  by_cases h : trimSpace e = []
  · simp [goLog, h]
  · simp only [goLog, h, if_neg h, if_false]

theorem parseLogOutput_eq_goLog (out : List Char) :
    ParseLogOutput out = goLog (splitChar '\x01' out) := by
  cases out with
  | nil => simp [ParseLogOutput, splitChar, goLog, trimSpace]
  | cons c rest => simp [ParseLogOutput]

theorem goLog_joinRecs :
    ∀ rs : List (List Char), (∀ r ∈ rs, '\x01' ∉ r) →
      goLog (splitChar '\x01' (joinRecs rs)) =
        rs.filterMap (fun e =>
          if trimSpace e = [] then none
          else parseCommitEntry (trimSpace e)) := by
  intro rs h
  induction rs with
  | nil => simp [joinRecs, splitChar, goLog, trimSpace]
  | cons r rest ih =>
    have hjoin : joinRecs (r :: rest) = r ++ '\x01' :: joinRecs rest := rfl
    rw [hjoin, splitChar_append_sep '\x01' r (joinRecs rest)
      (h r (List.mem_cons_self r rest)), goLog_cons,
      ih fun x hx => h x (List.mem_cons_of_mem r hx),
      List.filterMap_cons]
    cases hf : (if trimSpace r = [] then none
      else parseCommitEntry (trimSpace r)) with
    | none => rfl
    | some c => rfl

/-- C6: a commit record with fewer than 10 NUL-separated fields
contributes no commit and no error, and removing it from the record
stream leaves the parse of all other records unchanged: the output for
an input with such a record inserted between valid records equals the
output for the same input without it. -/
theorem parseLogOutput_drops_short_records (rs1 rs2 : List (List Char))
    (m : List Char)
    (hclean : ∀ r ∈ rs1 ++ m :: rs2, '\x01' ∉ r)
    (hshort : (splitCharN '\x00' 10 (trimSpace m)).length < 10) :
    ParseLogOutput (joinRecs (rs1 ++ m :: rs2)) =
      ParseLogOutput (joinRecs (rs1 ++ rs2)) := by
  have hclean2 : ∀ r ∈ rs1 ++ rs2, '\x01' ∉ r := by
    intro r hx
    refine hclean r ?_
    rcases List.mem_append.mp hx with h1 | h2
    · exact List.mem_append.mpr (Or.inl h1)
    · exact List.mem_append.mpr (Or.inr (List.mem_cons_of_mem m h2))
  rw [parseLogOutput_eq_goLog, parseLogOutput_eq_goLog,
    goLog_joinRecs _ hclean, goLog_joinRecs _ hclean2]
  have hm : (if trimSpace m = [] then none
      else parseCommitEntry (trimSpace m)) = none := by
    by_cases h : trimSpace m = []
    · simp [h]
    · simp only [h, if_neg h, if_false, parseCommitEntry, if_pos hshort]
  simp [List.filterMap_append, List.filterMap_cons, hm]

/-- C6 witness: a malformed three-character record inserted between a
well-formed ten-field record and the end of the stream parses to the
same commit list as the stream without it. -/
theorem parseLogOutput_drops_short_records_witness :
    (∀ r ∈ ["h\x00s\x00a\x00e\x005\x00r\x00j\x00b\x00\x00".data] ++
        "bad".data :: [], '\x01' ∉ r) ∧
    (splitCharN '\x00' 10 (trimSpace "bad".data)).length < 10 ∧
    ParseLogOutput (joinRecs
        (["h\x00s\x00a\x00e\x005\x00r\x00j\x00b\x00\x00".data] ++
          "bad".data :: [])) =
      ParseLogOutput (joinRecs
        (["h\x00s\x00a\x00e\x005\x00r\x00j\x00b\x00\x00".data] ++ [])) :=
  ⟨by decide, by decide,
    parseLogOutput_drops_short_records
      ["h\x00s\x00a\x00e\x005\x00r\x00j\x00b\x00\x00".data] []
      "bad".data (by decide) (by decide)⟩

/-! ## Claim theorems: status classification -/

theorem isUntrackedRec_iff (f : FileStatus) :
    isUntrackedRec f = true ↔
      f.Staging = StatusUntracked ∧ f.Worktree = StatusUntracked := by
  simp [isUntrackedRec]

theorem isConflictRec_iff (f : FileStatus) :
    isConflictRec f = true ↔
      (f.Staging = StatusUnmerged ∨ f.Worktree = StatusUnmerged ∨
        (f.Staging = StatusAdded ∧ f.Worktree = StatusAdded) ∨
        (f.Staging = StatusDeleted ∧ f.Worktree = StatusDeleted)) := by
  simp [isConflictRec, or_assoc]

/-- The loop-body classification agrees record by record with the four
membership predicates. -/
theorem statusClassify_eq (f : FileStatus) (res : StatusResult) :
    statusClassify f res =
      { Staged := if isStagedRec f then markStaged f :: res.Staged
          else res.Staged,
        Unstaged := if isUnstagedRec f then f :: res.Unstaged
          else res.Unstaged,
        Untracked := if isUntrackedRec f then f :: res.Untracked
          else res.Untracked,
        Conflicts := if isConflictRec f then f :: res.Conflicts
          else res.Conflicts } := by
  by_cases hu : f.Staging = StatusUntracked ∧ f.Worktree = StatusUntracked
  · have hu' : isUntrackedRec f = true := (isUntrackedRec_iff f).mpr hu
    have hc' : isConflictRec f = false := by
      rcases hu with ⟨h1, h2⟩
      simp only [isConflictRec, h1, h2]
      decide
    have hs' : isStagedRec f = false := by simp [isStagedRec, hu']
    have hw' : isUnstagedRec f = false := by simp [isUnstagedRec, hu']
    simp [statusClassify, hu, hu', hc', hs', hw']
  · have hu' : isUntrackedRec f = false := by
      cases h : isUntrackedRec f
      · rfl
      · exact absurd ((isUntrackedRec_iff f).mp h) hu
    by_cases hc : f.Staging = StatusUnmerged ∨ f.Worktree = StatusUnmerged ∨
        (f.Staging = StatusAdded ∧ f.Worktree = StatusAdded) ∨
        (f.Staging = StatusDeleted ∧ f.Worktree = StatusDeleted)
    · have hc' : isConflictRec f = true := (isConflictRec_iff f).mpr hc
      have hs' : isStagedRec f = false := by simp [isStagedRec, hc']
      have hw' : isUnstagedRec f = false := by simp [isUnstagedRec, hc']
      simp [statusClassify, hu, hc, hu', hc', hs', hw']
    · have hc' : isConflictRec f = false := by
        cases h : isConflictRec f
        · rfl
        · exact absurd ((isConflictRec_iff f).mp h) hc
      by_cases hs : f.Staging ≠ StatusUnmodified ∧
          f.Staging ≠ StatusUntracked
      · have hs' : isStagedRec f = true := by
          simp [isStagedRec, hu', hc', hs.1, hs.2]
        by_cases hw : f.Worktree ≠ StatusUnmodified ∧
            f.Worktree ≠ StatusUntracked
        · have hw' : isUnstagedRec f = true := by
            simp [isUnstagedRec, hu', hc', hw.1, hw.2]
          simp [statusClassify, hu, hc, hs, hw, hu', hc', hs', hw', markStaged]
        · have hw' : isUnstagedRec f = false := by
            simp only [isUnstagedRec, hu', hc']
            simpa [not_and_or] using hw
          simp [statusClassify, hu, hc, hs, hw, hu', hc', hs', hw', markStaged]
      · have hs' : isStagedRec f = false := by
          simp only [isStagedRec, hu', hc']
          simpa [not_and_or] using hs
        by_cases hw : f.Worktree ≠ StatusUnmodified ∧
            f.Worktree ≠ StatusUntracked
        · have hw' : isUnstagedRec f = true := by
            simp [isUnstagedRec, hu', hc', hw.1, hw.2]
          simp [statusClassify, hu, hc, hs, hw, hu', hc', hs', hw', markStaged]
        · have hw' : isUnstagedRec f = false := by
            simp only [isUnstagedRec, hu', hc']
            simpa [not_and_or] using hw
          simp [statusClassify, hu, hc, hs, hw, hu', hc', hs', hw', markStaged]

/-- The interleaved parse-and-classify loop computes exactly the four
filters of the record stream. -/
theorem goStatus_eq_filters :
    ∀ (n : Nat) (fs : List (List Char)), fs.length ≤ n →
      goStatus fs =
        { Staged := ((statusRecords fs).filter isStagedRec).map markStaged,
          Unstaged := (statusRecords fs).filter isUnstagedRec,
          Untracked := (statusRecords fs).filter isUntrackedRec,
          Conflicts := (statusRecords fs).filter isConflictRec } := by
  intro n
  induction n with
  | zero =>
    intro fs h
    have hfs : fs = [] := List.length_eq_zero.mp (Nat.le_zero.mp h)
    subst hfs
    rfl
  | succ n ih =>
    intro fs h
    match fs with
    | [] => rfl
    | entry :: rest =>
      by_cases hlen : entry.length < 4
      · have h1 : goStatus (entry :: rest) = goStatus rest := by
          simp only [goStatus]
          rw [if_pos hlen]
        have h2 : statusRecords (entry :: rest) = statusRecords rest := by
          simp only [statusRecords]
          rw [if_pos hlen]
        rw [h1, h2]
        refine ih rest ?_
        simp only [List.length_cons] at h
        omega
      · by_cases hrc : entry.getD 0 ' ' = StatusRenamed ∨
            entry.getD 0 ' ' = StatusCopied ∨
            entry.getD 1 ' ' = StatusRenamed ∨
            entry.getD 1 ' ' = StatusCopied
        · match rest with
          | [] =>
            have h1 : goStatus [entry] =
                statusClassify
                  ⟨entry.getD 0 ' ', entry.getD 1 ' ', entry.drop 3, [],
                    false⟩ (goStatus []) := by
              simp only [goStatus]
              rw [if_neg hlen, if_pos hrc]
            have h2 : statusRecords [entry] =
                [⟨entry.getD 0 ' ', entry.getD 1 ' ', entry.drop 3, [],
                  false⟩] := by
              simp only [statusRecords]
              rw [if_neg hlen, if_pos hrc]
            rw [h1, h2, statusClassify_eq]
            simp [goStatus, List.filter_cons, apply_ite]
          | o :: r =>
            have h1 : goStatus (entry :: o :: r) =
                statusClassify
                  ⟨entry.getD 0 ' ', entry.getD 1 ' ', entry.drop 3, o,
                    false⟩ (goStatus r) := by
              simp only [goStatus]
              rw [if_neg hlen, if_pos hrc]
            have h2 : statusRecords (entry :: o :: r) =
                ⟨entry.getD 0 ' ', entry.getD 1 ' ', entry.drop 3, o,
                  false⟩ :: statusRecords r := by
              simp only [statusRecords]
              rw [if_neg hlen, if_pos hrc]
            have hr : r.length ≤ n := by
              simp only [List.length_cons] at h
              omega
            rw [h1, h2, statusClassify_eq, ih r hr]
            simp [List.filter_cons, apply_ite]
        · have h1 : goStatus (entry :: rest) =
              statusClassify
                ⟨entry.getD 0 ' ', entry.getD 1 ' ', entry.drop 3, [],
                  false⟩ (goStatus rest) := by
            simp only [goStatus]
            rw [if_neg hlen, if_neg hrc]
          have h2 : statusRecords (entry :: rest) =
              ⟨entry.getD 0 ' ', entry.getD 1 ' ', entry.drop 3, [],
                false⟩ :: statusRecords rest := by
            simp only [statusRecords]
            rw [if_neg hlen, if_neg hrc]
          have hrest : rest.length ≤ n := by
            simp only [List.length_cons] at h
            omega
          rw [h1, h2, statusClassify_eq, ih rest hrest]
          simp [List.filter_cons, apply_ite]

/-- The classification of `ParseStatusOutput`, stated over the whole
parser (shared between the claim theorems below). -/
theorem parseStatusOutput_records_eq (out : List Char) :
    ParseStatusOutput out =
      { Staged := ((statusRecords (splitChar '\x00' out)).filter
          isStagedRec).map markStaged,
        Unstaged := (statusRecords (splitChar '\x00' out)).filter
          isUnstagedRec,
        Untracked := (statusRecords (splitChar '\x00' out)).filter
          isUntrackedRec,
        Conflicts := (statusRecords (splitChar '\x00' out)).filter
          isConflictRec } := by
  by_cases h : out = []
  · subst h
    rfl
  · rw [show ParseStatusOutput out = goStatus (splitChar '\x00' out) from by
      simp [ParseStatusOutput, h]]
    exact goStatus_eq_filters (splitChar '\x00' out).length _ le_rfl

/-- Every record the tokenizer produces carries `IsStaged = false` (the
Go zero value); only the copy pushed into `Staged` is marked. -/
theorem statusRecords_isStaged :
    ∀ (n : Nat) (l : List (List Char)), l.length ≤ n →
      ∀ f ∈ statusRecords l, f.IsStaged = false := by
  intro n
  induction n with
  | zero =>
    intro l h f hf
    have hl : l = [] := List.length_eq_zero.mp (Nat.le_zero.mp h)
    subst hl
    simp [statusRecords] at hf
  | succ n ih =>
    intro l h f hf
    match l with
    | [] => simp [statusRecords] at hf
    | entry :: rest =>
      by_cases hlen : entry.length < 4
      · rw [show statusRecords (entry :: rest) = statusRecords rest from by
          simp only [statusRecords]
          rw [if_pos hlen]] at hf
        refine ih rest ?_ f hf
        simp only [List.length_cons] at h
        omega
      · by_cases hrc : entry.getD 0 ' ' = StatusRenamed ∨
            entry.getD 0 ' ' = StatusCopied ∨
            entry.getD 1 ' ' = StatusRenamed ∨
            entry.getD 1 ' ' = StatusCopied
        · match rest with
          | [] =>
            rw [show statusRecords [entry] =
                [⟨entry.getD 0 ' ', entry.getD 1 ' ', entry.drop 3, [],
                  false⟩] from by
                    simp only [statusRecords]
                    rw [if_neg hlen, if_pos hrc]] at hf
            rcases List.mem_singleton.mp hf with rfl
            rfl
          | o :: r =>
            rw [show statusRecords (entry :: o :: r) =
                ⟨entry.getD 0 ' ', entry.getD 1 ' ', entry.drop 3, o,
                  false⟩ :: statusRecords r from by
              simp only [statusRecords]
              rw [if_neg hlen, if_pos hrc]] at hf
            rcases List.mem_cons.mp hf with rfl | hf2
            · rfl
            · refine ih r ?_ f hf2
              simp only [List.length_cons] at h
              omega
        · rw [show statusRecords (entry :: rest) =
              ⟨entry.getD 0 ' ', entry.getD 1 ' ', entry.drop 3, [],
                false⟩ :: statusRecords rest from by
            simp only [statusRecords]
            rw [if_neg hlen, if_neg hrc]] at hf
          rcases List.mem_cons.mp hf with rfl | hf2
          · rfl
          · refine ih rest ?_ f hf2
            simp only [List.length_cons] at h
            omega

/-- C1: `ParseStatusOutput` classifies every record of its input so that
a record with an unmerged code on either side, or added on both sides,
or deleted on both sides, lands exactly in `Conflicts`; a record
untracked on both sides lands exactly in `Untracked`; and every other
record lands in `Staged` exactly when its index-side code is neither
unmodified nor untracked and in `Unstaged` exactly when its
worktree-side code is neither unmodified nor untracked — so a partially
staged path appears in both `Staged` and `Unstaged` and nowhere else.
The four result lists are precisely the four (pairwise compatible)
filters of the record stream. -/
theorem parseStatusOutput_classification (out : List Char) :
    ParseStatusOutput out =
      { Staged := ((statusRecords (splitChar '\x00' out)).filter
          isStagedRec).map markStaged,
        Unstaged := (statusRecords (splitChar '\x00' out)).filter
          isUnstagedRec,
        Untracked := (statusRecords (splitChar '\x00' out)).filter
          isUntrackedRec,
        Conflicts := (statusRecords (splitChar '\x00' out)).filter
          isConflictRec } :=
  parseStatusOutput_records_eq out

/-- C10: every record in the `Staged` list carries `IsStaged = true`,
and every record in the `Unstaged`, `Untracked` and `Conflicts` lists
carries `IsStaged = false` — including the `Unstaged` copy of a
partially staged path. -/
theorem parseStatusOutput_isStaged_flags (out : List Char) :
    (∀ f ∈ (ParseStatusOutput out).Staged, f.IsStaged = true) ∧
    (∀ f ∈ (ParseStatusOutput out).Unstaged, f.IsStaged = false) ∧
    (∀ f ∈ (ParseStatusOutput out).Untracked, f.IsStaged = false) ∧
    (∀ f ∈ (ParseStatusOutput out).Conflicts, f.IsStaged = false) := by
  rw [parseStatusOutput_records_eq]
  refine ⟨?_, ?_, ?_, ?_⟩
  · intro f hf
    simp only [List.mem_map] at hf
    obtain ⟨g, _, rfl⟩ := hf
    rfl
  all_goals
    intro f hf
    exact statusRecords_isStaged (splitChar '\x00' out).length _ le_rfl f
      (List.mem_of_mem_filter hf)

/-- C10 witness: on the porcelain entry `MM a` (a partially staged
path), the staged copy is in `Staged` with the flag set and the
unstaged copy is in `Unstaged` with the flag clear. -/
theorem parseStatusOutput_isStaged_flags_witness :
    (⟨'M', 'M', ['a'], [], true⟩ : FileStatus) ∈
        (ParseStatusOutput "MM a".data).Staged ∧
    (⟨'M', 'M', ['a'], [], true⟩ : FileStatus).IsStaged = true ∧
    (⟨'M', 'M', ['a'], [], false⟩ : FileStatus) ∈
        (ParseStatusOutput "MM a".data).Unstaged ∧
    (⟨'M', 'M', ['a'], [], false⟩ : FileStatus).IsStaged = false :=
  ⟨by decide,
    (parseStatusOutput_isStaged_flags "MM a".data).1 _ (by decide),
    by decide,
    (parseStatusOutput_isStaged_flags "MM a".data).2.1 _ (by decide)⟩

/-! ## Cache lemmas -/

theorem lookupE_insertE_self {α : Type} (c : GitCache.Cache α) (k : String)
    (e : GitCache.cacheEntry α) :
    GitCache.lookupE (GitCache.insertE c k e) k = some e := by
  induction c with
  | nil => simp [GitCache.insertE, GitCache.lookupE]
  | cons p rest ih =>
    obtain ⟨k', e'⟩ := p
    by_cases h : k' = k
    · simp [GitCache.insertE, GitCache.lookupE, h]
    · simp [GitCache.insertE, GitCache.lookupE, h, ih]

theorem lookupE_insertE_ne {α : Type} (c : GitCache.Cache α) (k k' : String)
    (e : GitCache.cacheEntry α) (h : k' ≠ k) :
    GitCache.lookupE (GitCache.insertE c k e) k' = GitCache.lookupE c k' := by
  induction c with
  | nil => simp [GitCache.insertE, GitCache.lookupE, Ne.symm h]
  | cons p rest ih =>
    obtain ⟨k₀, e₀⟩ := p
    by_cases h0 : k₀ = k
    · subst h0
      simp [GitCache.insertE, GitCache.lookupE, Ne.symm h]
    · by_cases h1 : k₀ = k'
      · simp [GitCache.insertE, GitCache.lookupE, h0, h1, h]
      · simp [GitCache.insertE, GitCache.lookupE, h0, h1, ih]

theorem length_insertE_le {α : Type} (c : GitCache.Cache α) (k : String)
    (e : GitCache.cacheEntry α) :
    (GitCache.insertE c k e).length ≤ c.length + 1 := by
  induction c with
  | nil => simp [GitCache.insertE]
  | cons p rest ih =>
    obtain ⟨k', e'⟩ := p
    by_cases h : k' = k
    · simp [GitCache.insertE, h]
    · simp [GitCache.insertE, h]
      omega

theorem getE_setE_self {α : Type} (ttl now now2 : Int) (c : GitCache.Cache α)
    (k : String) (v : α) (err : Option String) :
    GitCache.getE (GitCache.setE ttl c now k v err) now2 k =
      if now2 > now + ttl then none else some (v, err) := by
  simp [GitCache.setE, GitCache.getE, lookupE_insertE_self]

theorem setE_of_small {α : Type} (ttl now : Int) (c : GitCache.Cache α)
    (k : String) (v : α) (err : Option String)
    (h : c.length < GitCache.maxCacheEntries) :
    GitCache.setE ttl c now k v err =
      GitCache.insertE c k ⟨v, err, now + ttl⟩ := by
  simp [GitCache.setE, Nat.not_le.mpr h]

/-! ## Claim theorems: the cache -/

/-- C2 counterexample: the claim quantifies over every write operation
with no condition on the write's outcome, but a write whose inner call
fails does not clear the cache: starting from a cache holding a fresh
`"head"` entry with value 7, a failed `Stage` leaves the cache intact,
and a following `Head` read returns the pre-write cached value 7 without
invoking the inner service. -/
theorem cachedService_failed_write_counterexample :
    (GitCache.Stage ([("head", ⟨7, none, 10⟩)] : GitCache.Cache Nat)
        (some "boom")).2 = [("head", ⟨7, none, 10⟩)] ∧
    (GitCache.Head 2
        (GitCache.Stage ([("head", ⟨7, none, 10⟩)] : GitCache.Cache Nat)
          (some "boom")).2 5 8 none).invoked = false ∧
    (GitCache.Head 2
        (GitCache.Stage ([("head", ⟨7, none, 10⟩)] : GitCache.Cache Nat)
          (some "boom")).2 5 8 none).value = 7 := by
  refine ⟨rfl, ?_, ?_⟩ <;> rfl

/-- C2 (amended): for every write operation on `CachedService`, when the
inner call succeeds (returns a nil error) the entire cache is cleared
before the write returns, and any subsequently performed cached read
misses, re-executes the underlying inner-service call and returns the
inner result — the pre-write cached value or error is never returned.
(Every write method — `Stage`, `StageAll`, `Unstage`, `UnstageAll`,
`Discard`, `Commit`, `CommitAmend`, the branch/stash/remote/worktree/
rebase/bisect mutations and `MarkResolved` — is
`invalidateAndReturn(inner call)`, here represented by `Stage`; every
cached read is an instance of `cachedRead`.) -/
theorem cachedService_write_invalidates {α : Type} (c : GitCache.Cache α)
    (ie : Option String) (h : ie = none) :
    (GitCache.Stage c ie).2 = [] ∧
    (GitCache.Stage c ie).1 = ie ∧
    ∀ (ttl now : Int) (key : String) (iv : α) (ie2 : Option String),
      (GitCache.cachedRead ttl (GitCache.Stage c ie).2 now key iv ie2).invoked
          = true ∧
      (GitCache.cachedRead ttl (GitCache.Stage c ie).2 now key iv ie2).value
          = iv ∧
      (GitCache.cachedRead ttl (GitCache.Stage c ie).2 now key iv ie2).err
          = ie2 := by
  subst h
  refine ⟨rfl, rfl, ?_⟩
  intro ttl now key iv ie2
  refine ⟨rfl, rfl, rfl⟩

/-- C3: two sequential cached reads of one key inside one TTL window
(the window opened by the first read, which misses) with no intervening
write return identical results and invoke the inner service exactly
once — the first read invokes it, the second does not and returns the
first read's value and error.  Moreover, in the `Head`, then `Status`,
then `Head` scenario (with the cache comfortably below its entry cap,
as it always is with the fixed key set of `cache.go`), the second
`Head` call does not invoke the inner service and returns what the
first `Head` call returned, whatever the intervening `Status` call
did. -/
theorem cachedService_ttl_coherence {α : Type} :
    (∀ (ttl now1 now2 : Int) (c : GitCache.Cache α) (key : String)
        (iv1 iv2 : α) (ie1 ie2 : Option String),
      GitCache.getE c now1 key = none → now2 ≤ now1 + ttl →
      (GitCache.cachedRead ttl c now1 key iv1 ie1).invoked = true ∧
      (GitCache.cachedRead ttl c now1 key iv1 ie1).value = iv1 ∧
      (GitCache.cachedRead ttl c now1 key iv1 ie1).err = ie1 ∧
      (GitCache.cachedRead ttl
          (GitCache.cachedRead ttl c now1 key iv1 ie1).cache now2 key iv2
          ie2).invoked = false ∧
      (GitCache.cachedRead ttl
          (GitCache.cachedRead ttl c now1 key iv1 ie1).cache now2 key iv2
          ie2).value = iv1 ∧
      (GitCache.cachedRead ttl
          (GitCache.cachedRead ttl c now1 key iv1 ie1).cache now2 key iv2
          ie2).err = ie1) ∧
    (∀ (ttl now1 now2 now3 : Int) (c : GitCache.Cache α) (hv sv hv3 : α)
        (he se he3 : Option String),
      GitCache.getE c now1 "head" = none → now3 ≤ now1 + ttl →
      c.length + 1 < GitCache.maxCacheEntries →
      (GitCache.Head ttl c now1 hv he).invoked = true ∧
      (GitCache.Head ttl
          (GitCache.Status ttl (GitCache.Head ttl c now1 hv he).cache now2
            sv se).cache now3 hv3 he3).invoked = false ∧
      (GitCache.Head ttl
          (GitCache.Status ttl (GitCache.Head ttl c now1 hv he).cache now2
            sv se).cache now3 hv3 he3).value = hv ∧
      (GitCache.Head ttl
          (GitCache.Status ttl (GitCache.Head ttl c now1 hv he).cache now2
            sv se).cache now3 hv3 he3).err = he) := by
  constructor
  · intro ttl now1 now2 c key iv1 iv2 ie1 ie2 hmiss hwin
    have h1 : GitCache.cachedRead ttl c now1 key iv1 ie1 =
        ⟨iv1, ie1, GitCache.setE ttl c now1 key iv1 ie1, true⟩ := by
      simp [GitCache.cachedRead, hmiss]
    have h2 : GitCache.getE (GitCache.setE ttl c now1 key iv1 ie1) now2 key =
        some (iv1, ie1) := by
      rw [getE_setE_self, if_neg (by omega)]
    rw [h1]
    simp [GitCache.cachedRead, h2]
  · intro ttl now1 now2 now3 c hv sv hv3 he se he3 hmiss hwin hsize
    have e1 : GitCache.Head ttl c now1 hv he =
        ⟨hv, he, GitCache.insertE c "head" ⟨hv, he, now1 + ttl⟩, true⟩ := by
      simp [GitCache.Head, GitCache.cachedRead, hmiss]
      rw [setE_of_small]
      omega
    have hlen1 :
        (GitCache.insertE c "head"
          (⟨hv, he, now1 + ttl⟩ : GitCache.cacheEntry α)).length <
          GitCache.maxCacheEntries := by
      have h := length_insertE_le c "head"
        (⟨hv, he, now1 + ttl⟩ : GitCache.cacheEntry α)
      omega
    have hl1 := lookupE_insertE_self c "head"
      (⟨hv, he, now1 + ttl⟩ : GitCache.cacheEntry α)
    have hkey : ("head" : String) ≠ "status" := by decide
    have hhead : ∀ c2 : GitCache.Cache α,
        GitCache.lookupE c2 "head" = some ⟨hv, he, now1 + ttl⟩ →
        (GitCache.Head ttl c2 now3 hv3 he3).invoked = false ∧
        (GitCache.Head ttl c2 now3 hv3 he3).value = hv ∧
        (GitCache.Head ttl c2 now3 hv3 he3).err = he := by
      intro c2 hc2
      have hg : GitCache.getE c2 now3 "head" = some (hv, he) := by
        simp [GitCache.getE, hc2]
        omega
      simp [GitCache.Head, GitCache.cachedRead, hg]
    rw [e1]
    dsimp only
    refine ⟨rfl, ?_⟩
    cases hst : GitCache.getE
        (GitCache.insertE c "head" ⟨hv, he, now1 + ttl⟩) now2 "status" with
    | some p =>
      have hstat : GitCache.Status ttl
          (GitCache.insertE c "head" ⟨hv, he, now1 + ttl⟩) now2 sv se =
          ⟨p.1, p.2, GitCache.insertE c "head" ⟨hv, he, now1 + ttl⟩,
            false⟩ := by
        simp [GitCache.Status, GitCache.cachedRead, hst]
      rw [hstat]
      exact hhead _ hl1
    | none =>
      have hstat : GitCache.Status ttl
          (GitCache.insertE c "head" ⟨hv, he, now1 + ttl⟩) now2 sv se =
          ⟨sv, se,
            GitCache.insertE
              (GitCache.insertE c "head" ⟨hv, he, now1 + ttl⟩) "status"
              ⟨sv, se, now2 + ttl⟩, true⟩ := by
        simp [GitCache.Status, GitCache.cachedRead, hst]
        rw [setE_of_small]
        exact hlen1
      rw [hstat]
      refine hhead _ ?_
      rw [lookupE_insertE_ne _ _ _ _ hkey]
      exact hl1

/-- C3 witness: the theorem's generic part and its Head/Status/Head
scenario applied to an empty cache, TTL 2, instants 0, 1, 2. -/
theorem cachedService_ttl_coherence_witness :
    (GitCache.cachedRead 2
        (GitCache.cachedRead 2 ([] : GitCache.Cache Nat) 0 "head" 7 none).cache
        2 "head" 9 none).invoked = false ∧
    (GitCache.Head 2
        (GitCache.Status 2
          (GitCache.Head 2 ([] : GitCache.Cache Nat) 0 7 none).cache 1 5
          none).cache 2 9 none).value = 7 :=
  ⟨((cachedService_ttl_coherence.1 2 0 2 ([] : GitCache.Cache Nat) "head" 7 9
      none none (by decide) (by omega)).2.2.2).1,
    ((cachedService_ttl_coherence.2 2 0 1 2 ([] : GitCache.Cache Nat) 7 5 9
      none none none (by decide) (by omega) (by decide)).2.2).1⟩

/-- C7: when a cached read fails (the inner call returns a non-nil
error), the error is stored under the operation's key with expiry
`now + ttl`, exactly the expiry a successful value receives; a second
call to the same operation inside the TTL returns the same value and
error without invoking the inner service; a subsequent successful write
clears the cached error, so the next read invokes the inner service
again. -/
theorem cachedService_error_caching {α : Type} (ttl now1 now2 now3 : Int)
    (c : GitCache.Cache α) (key : String) (iv iv2 iv3 : α) (msg : String)
    (ie2 ie3 : Option String)
    (hmiss : GitCache.getE c now1 key = none)
    (hwin : now2 ≤ now1 + ttl) :
    (GitCache.cachedRead ttl c now1 key iv (some msg)).invoked = true ∧
    (GitCache.cachedRead ttl c now1 key iv (some msg)).err = some msg ∧
    GitCache.lookupE (GitCache.cachedRead ttl c now1 key iv (some msg)).cache
        key = some ⟨iv, some msg, now1 + ttl⟩ ∧
    (GitCache.cachedRead ttl
        (GitCache.cachedRead ttl c now1 key iv (some msg)).cache now2 key iv2
        ie2).invoked = false ∧
    (GitCache.cachedRead ttl
        (GitCache.cachedRead ttl c now1 key iv (some msg)).cache now2 key iv2
        ie2).err = some msg ∧
    (GitCache.cachedRead ttl
        (GitCache.cachedRead ttl c now1 key iv (some msg)).cache now2 key iv2
        ie2).value = iv ∧
    (GitCache.invalidateAndReturn
        (GitCache.cachedRead ttl
          (GitCache.cachedRead ttl c now1 key iv (some msg)).cache now2 key
          iv2 ie2).cache none).2 = [] ∧
    (GitCache.cachedRead ttl
        (GitCache.invalidateAndReturn
          (GitCache.cachedRead ttl
            (GitCache.cachedRead ttl c now1 key iv (some msg)).cache now2 key
            iv2 ie2).cache none).2 now3 key iv3 ie3).invoked = true := by
  have h1 : GitCache.cachedRead ttl c now1 key iv (some msg) =
      ⟨iv, some msg, GitCache.setE ttl c now1 key iv (some msg), true⟩ := by
    simp [GitCache.cachedRead, hmiss]
  have hlook : GitCache.lookupE (GitCache.setE ttl c now1 key iv (some msg))
      key = some ⟨iv, some msg, now1 + ttl⟩ := by
    simp [GitCache.setE, lookupE_insertE_self]
  have h2 : GitCache.getE (GitCache.setE ttl c now1 key iv (some msg)) now2
      key = some (iv, some msg) := by
    rw [getE_setE_self, if_neg (by omega)]
  rw [h1]
  dsimp only
  refine ⟨rfl, rfl, hlook, ?_⟩
  have h3 : GitCache.cachedRead ttl
      (GitCache.setE ttl c now1 key iv (some msg)) now2 key iv2 ie2 =
      ⟨iv, some msg, GitCache.setE ttl c now1 key iv (some msg), false⟩ := by
    simp [GitCache.cachedRead, h2]
  rw [h3]
  refine ⟨rfl, rfl, rfl, rfl, rfl⟩

/-- C7 witness: the theorem applied to the empty cache, key
`"status"`, a failing inner call, TTL 2, instants 0, 1, 3. -/
theorem cachedService_error_caching_witness :
    (GitCache.cachedRead 2
        (GitCache.cachedRead 2 ([] : GitCache.Cache Nat) 0 "status" 0
          (some "locked")).cache 1 "status" 4 none).err = some "locked" :=
  (cachedService_error_caching 2 0 1 3 ([] : GitCache.Cache Nat) "status" 0 4
    6 "locked" none none (by decide) (by omega)).2.2.2.2.1

/-- C8: the cache entry map never exceeds `maxCacheEntries` (64)
entries: an insertion yields at most 64 entries from any starting state;
a cached read and a write preserve the bound; and an insertion that
finds the map at or above the cap first keeps only the unexpired
entries, and flushes the entire map before storing when even those
are still at or above the cap. -/
theorem cachedService_size_bound {α : Type} :
    (∀ (ttl now : Int) (c : GitCache.Cache α) (k : String) (v : α)
        (e : Option String),
      (GitCache.setE ttl c now k v e).length ≤ GitCache.maxCacheEntries) ∧
    (∀ (ttl now : Int) (c : GitCache.Cache α) (k : String) (iv : α)
        (ie : Option String),
      c.length ≤ GitCache.maxCacheEntries →
      ((GitCache.cachedRead ttl c now k iv ie).cache).length ≤
        GitCache.maxCacheEntries) ∧
    (∀ (c : GitCache.Cache α) (e : Option String),
      c.length ≤ GitCache.maxCacheEntries →
      ((GitCache.invalidateAndReturn c e).2).length ≤
        GitCache.maxCacheEntries) ∧
    (∀ (ttl now : Int) (c : GitCache.Cache α) (k : String) (v : α)
        (e : Option String),
      GitCache.maxCacheEntries ≤ c.length →
      (c.filter fun p => !(now > p.2.expiry)).length <
          GitCache.maxCacheEntries →
      GitCache.setE ttl c now k v e =
        GitCache.insertE (c.filter fun p => !(now > p.2.expiry)) k
          ⟨v, e, now + ttl⟩) ∧
    (∀ (ttl now : Int) (c : GitCache.Cache α) (k : String) (v : α)
        (e : Option String),
      GitCache.maxCacheEntries ≤ c.length →
      GitCache.maxCacheEntries ≤
          (c.filter fun p => !(now > p.2.expiry)).length →
      GitCache.setE ttl c now k v e = [(k, ⟨v, e, now + ttl⟩)]) := by
  have hset : ∀ (ttl now : Int) (c : GitCache.Cache α) (k : String) (v : α)
      (e : Option String),
      (GitCache.setE ttl c now k v e).length ≤ GitCache.maxCacheEntries := by
    intro ttl now c k v e
    by_cases hc : GitCache.maxCacheEntries ≤ c.length
    · by_cases hf : GitCache.maxCacheEntries ≤
          (c.filter fun p => !(now > p.2.expiry)).length
      · simp only [GitCache.setE, if_pos hc, if_pos hf, GitCache.insertE]
        simp [GitCache.maxCacheEntries]
      · have h1 := length_insertE_le (c.filter fun p => !(now > p.2.expiry))
          k (⟨v, e, now + ttl⟩ : GitCache.cacheEntry α)
        simp only [GitCache.setE, if_pos hc, if_neg hf]
        omega
    · have h1 := length_insertE_le c k (⟨v, e, now + ttl⟩ :
        GitCache.cacheEntry α)
      simp only [GitCache.setE, if_neg hc]
      omega
  refine ⟨hset, ?_, ?_, ?_, ?_⟩
  · intro ttl now c k iv ie hc
    cases hg : GitCache.getE c now k with
    | some p => simpa [GitCache.cachedRead, hg] using hc
    | none => simpa [GitCache.cachedRead, hg] using hset ttl now c k iv ie
  · intro c e hc
    by_cases he : e = none <;>
      simp [GitCache.invalidateAndReturn, GitCache.Invalidate, he, hc]
  · intro ttl now c k v e hc hf
    simp only [GitCache.setE, if_pos hc, if_neg (by omega :
      ¬ GitCache.maxCacheEntries ≤
        (c.filter fun p => !(now > p.2.expiry)).length)]
  · intro ttl now c k v e hc hf
    simp only [GitCache.setE, if_pos hc, if_pos hf, GitCache.insertE]

/-- C8 witness: the bound-preservation conjunct for cached reads applied
to a concrete one-entry cache. -/
theorem cachedService_size_bound_witness :
    ([("head", ⟨7, none, 10⟩)] : GitCache.Cache Nat).length ≤
        GitCache.maxCacheEntries ∧
    ((GitCache.cachedRead 2 ([("head", ⟨7, none, 10⟩)] : GitCache.Cache Nat)
        0 "status" 6 none).cache).length ≤ GitCache.maxCacheEntries :=
  ⟨by decide,
    cachedService_size_bound.2.1 2 0
      ([("head", ⟨7, none, 10⟩)] : GitCache.Cache Nat) "status" 6 none
      (by decide)⟩

/-- C2 witness: the amended theorem applied to a concrete one-entry
cache and a successful write. -/
theorem cachedService_write_invalidates_witness :
    (GitCache.Stage ([("head", ⟨7, none, 10⟩)] : GitCache.Cache Nat)
        none).2 = [] ∧
    (GitCache.cachedRead 2
        (GitCache.Stage ([("head", ⟨7, none, 10⟩)] : GitCache.Cache Nat)
          none).2 5 "head" 8 none).invoked = true :=
  ⟨(cachedService_write_invalidates
      ([("head", ⟨7, none, 10⟩)] : GitCache.Cache Nat) none rfl).1,
    ((cachedService_write_invalidates
      ([("head", ⟨7, none, 10⟩)] : GitCache.Cache Nat) none rfl).2.2
        2 5 "head" 8 none).1⟩

end Git
